import Mathlib

/-!
Verification of the document content classifier and preview/edit controller
of the ai-resume frontend (DocumentPreview.jsx and its embedding Export page).

Strings are modelled as lists of characters; the JS helpers used by the
source (String.prototype.trim, split, includes, startsWith, substring) are
embedded as executable functions below, following ECMAScript semantics for
the cases the source exercises.
-/

/-- The character set removed by JS String.prototype.trim and matched by the
regex class backslash-s: WhiteSpace plus LineTerminator code points. -/
def isJsWhitespace (c : Char) : Bool :=
  decide (c = ' ') || decide (c = '\t') || decide (c = '\n') || decide (c = '\r') ||
  decide (c.toNat = 11) || decide (c.toNat = 12) || decide (c.toNat = 0xa0) ||
  decide (c.toNat = 0x1680) ||
  (decide (0x2000 ≤ c.toNat) && decide (c.toNat ≤ 0x200a)) ||
  decide (c.toNat = 0x2028) || decide (c.toNat = 0x2029) || decide (c.toNat = 0x202f) ||
  decide (c.toNat = 0x205f) || decide (c.toNat = 0x3000) || decide (c.toNat = 0xfeff)

/-- Uppercase ASCII letter, the A-Z range of the source's regexes. -/
def isUpperAZ (c : Char) : Bool :=
  decide (65 ≤ c.toNat) && decide (c.toNat ≤ 90)

/-- Leading-whitespace removal, the first half of JS trim. -/
def trimLeft (l : List Char) : List Char :=
  l.dropWhile isJsWhitespace

/-- JS String.prototype.trim: drop leading and trailing whitespace. -/
def trim (l : List Char) : List Char :=
  ((trimLeft l).reverse.dropWhile isJsWhitespace).reverse

/-- JS s.includes(c) for a single-character needle. -/
def hasChar (c : Char) : List Char → Bool
  | [] => false
  | d :: ds => decide (d = c) || hasChar c ds

/-- Whether the second list starts with the first (pattern) list. -/
def listStartsWith : List Char → List Char → Bool
  | [], _ => true
  | _ :: _, [] => false
  | p :: ps, d :: ds => decide (p = d) && listStartsWith ps ds

/-- JS s.includes(pat): substring containment. -/
def listContains (pat : List Char) : List Char → Bool
  | [] => pat.isEmpty
  | d :: ds => listStartsWith pat (d :: ds) || listContains pat ds

/-- JS s.startsWith(c) for a one-character argument. -/
def startsWithChar (c : Char) : List Char → Bool
  | [] => false
  | d :: _ => decide (d = c)

/-- JS s.split(sep) for a one-character separator: always returns at least
one piece, and splitting the empty string gives one empty piece. -/
def splitOnChar (sep : Char) : List Char → List (List Char)
  | [] => [[]]
  | c :: cs =>
    if c = sep then [] :: splitOnChar sep cs
    else
      match splitOnChar sep cs with
      | [] => [[c]]
      | p :: ps => (c :: p) :: ps

/-- JS array.join(sep) for a one-character separator. -/
def joinWith (sep : Char) : List (List Char) → List Char
  | [] => []
  | [p] => p
  | p :: q :: ps => p ++ sep :: joinWith sep (q :: ps)

/-- The eight rendering roles a classified line can receive. -/
inductive Role where
  | blank
  | person_name
  | contact_info
  | section_header
  | job_header
  | bullet
  | skill_entry
  | paragraph
deriving DecidableEq, Repr

/-- Classification output for a single line, carrying the text the renderer
shows; skill entries are pre-split into key and value as in the source. -/
inductive Block where
  | blank
  | person_name (text : List Char)
  | contact_info (text : List Char)
  | section_header (text : List Char)
  | job_header (text : List Char)
  | bullet (text : List Char)
  | skill_entry (key value : List Char)
  | paragraph (text : List Char)
deriving DecidableEq, Repr

/-- The role tag of a Block. -/
def blockRole : Block → Role
  | .blank => .blank
  | .person_name _ => .person_name
  | .contact_info _ => .contact_info
  | .section_header _ => .section_header
  | .job_header _ => .job_header
  | .bullet _ => .bullet
  | .skill_entry _ _ => .skill_entry
  | .paragraph _ => .paragraph

/-- The text content a Block displays; a skill entry renders its key, a
colon, then its value, and a blank line renders no text. -/
def displayText : Block → List Char
  | .blank => []
  | .person_name t => t
  | .contact_info t => t
  | .section_header t => t
  | .job_header t => t
  | .bullet t => t
  | .skill_entry k v => k ++ ':' :: v
  | .paragraph t => t

/-- The fixed vocabulary of section titles from DocumentPreview.jsx. -/
def sectionVocab : List (List Char) :=
  ["PROFESSIONAL SUMMARY".data, "WORK EXPERIENCE".data, "EDUCATION".data,
   "SKILLS".data, "PROJECTS".data, "CERTIFICATIONS".data,
   "EXTRACURRICULAR ACTIVITIES".data, "AWARDS & ACHIEVEMENTS".data,
   "VOLUNTEER".data, "LANGUAGES".data, "INTERESTS".data]

/-- The linkedin substring tested by the contact-info rule. -/
def linkedinPat : List Char := "linkedin.com".data

/-- Rule 1 trigger: the trimmed line is empty. -/
def blankCond (t : List Char) : Bool := t.isEmpty

/-- Whole-string match of the source regex for uppercase letters and
whitespace only, on a nonempty string. -/
def jsMatchNameChars (t : List Char) : Bool :=
  !t.isEmpty && t.all fun c => isUpperAZ c || isJsWhitespace c

/-- Whole-string match of the source regex for uppercase letters, whitespace
and ampersand only, on a nonempty string. -/
def jsMatchSectionChars (t : List Char) : Bool :=
  !t.isEmpty && t.all fun c => isUpperAZ c || isJsWhitespace c || decide (c = '&')

/-- Rule 2 trigger: first line, all-caps-and-space regex, length above 3. -/
def nameCond (index : Nat) (t : List Char) : Bool :=
  decide (index = 0) && jsMatchNameChars t && decide (3 < t.length)

/-- Rule 3 trigger: contains an at sign, or the linkedin substring, or a
pipe within the first five lines. -/
def contactCond (index : Nat) (t : List Char) : Bool :=
  hasChar '@' t || listContains linkedinPat t || (hasChar '|' t && decide (index < 5))

/-- Rule 4 trigger: section-chars regex, length above 3, and some vocabulary
title occurs as a substring. -/
def sectionCond (t : List Char) : Bool :=
  jsMatchSectionChars t && decide (3 < t.length) &&
    sectionVocab.any fun sec => listContains sec t

/-- Rule 5 trigger: contains a pipe and splitting on pipe gives at least two
pieces (empty pieces included, as JS split counts them). -/
def jobCond (t : List Char) : Bool :=
  hasChar '|' t && decide (2 ≤ (splitOnChar '|' t).length)

/-- Rule 6 trigger: the trimmed line starts with the bullet glyph. -/
def bulletCond (t : List Char) : Bool := startsWithChar '•' t

/-- Rule 7 trigger: contains a colon and no at sign. -/
def skillCond (t : List Char) : Bool := hasChar ':' t && !hasChar '@' t

/-- The per-line dispatch of formatContent, applied to the already-trimmed
line, following the source's if-chain in order. -/
def classifyTrimmed (index : Nat) (t : List Char) : Block :=
  if blankCond t then Block.blank
  else if nameCond index t then Block.person_name t
  else if contactCond index t then Block.contact_info t
  else if sectionCond t then Block.section_header t
  else if jobCond t then Block.job_header t
  else if bulletCond t then Block.bullet (trim (t.drop 1))
  else if skillCond t then
    Block.skill_entry ((splitOnChar ':' t).headD [])
      (trim (joinWith ':' ((splitOnChar ':' t).drop 1)))
  else Block.paragraph t

/-- Classification of one raw line at a given index: the source trims the
line first and then dispatches on the trimmed text. -/
def classifyLine (index : Nat) (line : List Char) : Block :=
  classifyTrimmed index (trim line)

/-- The map with index over the split lines, as in text.split(newline).map. -/
def classifyLinesFrom (index : Nat) : List (List Char) → List Block
  | [] => []
  | l :: ls => classifyLine index l :: classifyLinesFrom (index + 1) ls

/-- formatContent on a string input: empty text short-circuits to no blocks
via the falsy guard, otherwise one block per newline-delimited line. -/
def classifyText (text : List Char) : List Block :=
  if text.isEmpty then [] else classifyLinesFrom 0 (splitOnChar '\n' text)

/-- formatContent including the falsy guard over absent (null or undefined)
content, modelled as an Option. -/
def formatContent (text : Option (List Char)) : List Block :=
  match text with
  | none => []
  | some t => classifyText t

/-- The newline-split lines of a text. -/
def linesOf (text : List Char) : List (List Char) := splitOnChar '\n' text

/-- Number of lines as the spec counts them: zero for the empty string,
otherwise the number of pieces produced by splitting on newline. -/
def numberOfLines (text : List Char) : Nat :=
  if text.isEmpty then 0 else (linesOf text).length

/-- JS x || d on an optional number: absent or zero falls back to d. -/
def jsOrNat (v : Option Nat) (d : Nat) : Nat :=
  match v with
  | none => d
  | some n => if n = 0 then d else n

/-- The footer's character counter: content?.length || 0. -/
def charCountDisplay (content : Option (List Char)) : Nat :=
  jsOrNat (content.map fun t => t.length) 0

/-- The ordered rule table of the classifier: predicate and resulting role,
in source order; the paragraph default is the fall-through of firstMatch. -/
def ruleList : List ((Nat → List Char → Bool) × Role) :=
  [(fun _ t => blankCond t, Role.blank),
   (fun i t => nameCond i t, Role.person_name),
   (fun i t => contactCond i t, Role.contact_info),
   (fun _ t => sectionCond t, Role.section_header),
   (fun _ t => jobCond t, Role.job_header),
   (fun _ t => bulletCond t, Role.bullet),
   (fun _ t => skillCond t, Role.skill_entry)]

/-- First-match-wins evaluation of an ordered rule table, defaulting to the
paragraph role when no rule fires. -/
def firstMatch (index : Nat) (t : List Char) : List ((Nat → List Char → Bool) × Role) → Role
  | [] => Role.paragraph
  | (p, r) :: rest => if p index t then r else firstMatch index t rest

/-- Component state of the preview modal together with its embedding page:
visibility flag, edit flag, draft buffer, owner-held content, and the log of
values passed to the save callback. -/
structure PreviewState where
  isOpen : Bool
  isEditing : Bool
  editedContent : Option (List Char)
  content : Option (List Char)
  saveLog : List (Option (List Char))
deriving DecidableEq, Repr

/-- User actions on the preview: open and close from the embedding page,
edit-session actions from the modal's buttons and textarea. -/
inductive UserAction where
  | openPreview
  | closePreview
  | beginEdit
  | editDraft (t : List Char)
  | cancelEdit
  | saveEdit
deriving DecidableEq, Repr

/-- Mount-time state: closed, not editing, draft seeded from the initial
content prop, empty save log. -/
def initState (c : Option (List Char)) : PreviewState :=
  { isOpen := false, isEditing := false, editedContent := c, content := c, saveLog := [] }

/-- One user action. Buttons that are not rendered in the current state
(edit only when viewing, cancel and save and the textarea only while
editing, all only while open) are no-ops. The save callback runs the
embedding page's handler, which shows a notification and leaves the owner's
content unchanged; closing only flips the visibility flag, since the
component stays mounted and keeps its local state. -/
def step (s : PreviewState) : UserAction → PreviewState
  | .openPreview => { s with isOpen := true }
  | .closePreview => { s with isOpen := false }
  | .beginEdit => if s.isOpen && !s.isEditing then { s with isEditing := true } else s
  | .editDraft t => if s.isOpen && s.isEditing then { s with editedContent := some t } else s
  | .cancelEdit =>
    if s.isOpen && s.isEditing then
      { s with isEditing := false, editedContent := s.content }
    else s
  | .saveEdit =>
    if s.isOpen && s.isEditing then
      { s with isEditing := false, saveLog := s.saveLog ++ [s.editedContent] }
    else s

/-- Run a sequence of user actions from a state. -/
def run (s : PreviewState) (acts : List UserAction) : PreviewState :=
  acts.foldl step s

/-- The text surface currently rendered: the draft while editing, the
owner's content otherwise. -/
def shownText (s : PreviewState) : Option (List Char) :=
  if s.isEditing then s.editedContent else s.content

/-- Length of the currently shown text, zero when absent. -/
def shownTextLength (s : PreviewState) : Nat :=
  match shownText s with
  | none => 0
  | some t => t.length

/-- The footer counter as rendered, always computed from the content prop. -/
def displayedCount (s : PreviewState) : Nat :=
  charCountDisplay s.content

/-- C10: the classifier has an explicit falsy-input guard, so absent (null
or undefined) content yields an empty block sequence rather than an error,
the empty string likewise, and the character counter falls back to zero on
absent content. -/
theorem classifier_null_guard :
    formatContent none = [] ∧ formatContent (some []) = [] ∧
    charCountDisplay none = 0 ∧ charCountDisplay (some []) = 0 := by
  refine ⟨rfl, rfl, rfl, rfl⟩

/-- Concrete action run for the stale-draft scenario: edit to X, save, then
start a new edit session; the embedding page's save handler does not persist
the committed text. -/
def staleDraftState : PreviewState :=
  run (initState (some "ABCD".data))
    [UserAction.openPreview, UserAction.beginEdit, UserAction.editDraft "X".data,
     UserAction.saveEdit, UserAction.beginEdit]

/-- C2 counterexample: after edit, save and a new beginEdit, the session is
editing a draft equal to the previously committed draft X, while the current
rawText is still ABCD, so the draft at the start of the new edit session is
not the current rawText. -/
theorem begin_edit_stale_draft_cex :
    staleDraftState.isEditing = true ∧
    staleDraftState.editedContent = some "X".data ∧
    staleDraftState.content = some "ABCD".data ∧
    staleDraftState.editedContent ≠ staleDraftState.content := by
  refine ⟨rfl, rfl, rfl, by decide⟩

/-- C2 amended: beginEdit never touches the draft buffer; the draft is
seeded from the content at mount and re-seeded from it only by cancelEdit,
so a new edit session shows whatever the buffer last held, which matches the
current rawText after a cancel but equals the previously committed draft
after a save. -/
theorem begin_edit_preserves_draft :
    ∀ s : PreviewState,
      (step s UserAction.beginEdit).editedContent = s.editedContent ∧
      (step s UserAction.cancelEdit).editedContent =
        (if s.isOpen && s.isEditing then s.content else s.editedContent) := by
  intro s
  constructor
  · show (if s.isOpen && !s.isEditing then { s with isEditing := true } else s).editedContent = _
    by_cases h : (s.isOpen && !s.isEditing) = true
    · rw [if_pos h]
    · rw [if_neg h]
  · show (if s.isOpen && s.isEditing then
        { s with isEditing := false, editedContent := s.content } else s).editedContent = _
    by_cases h : (s.isOpen && s.isEditing) = true
    · rw [if_pos h, if_pos h]
    · rw [if_neg h, if_neg h]

/-- Concrete action run for the save scenario: open, begin editing, type X,
save. -/
def saveScenarioState : PreviewState :=
  run (initState (some "HELLO".data))
    [UserAction.openPreview, UserAction.beginEdit, UserAction.editDraft "X".data,
     UserAction.saveEdit]

/-- C3: saving invokes the save callback exactly once with the draft X and
returns to Viewing, but the owner's content is still HELLO: the page's save
handler only shows a notification and never stores the new text, so rawText
is not set to the draft. -/
theorem save_edit_no_persist :
    saveScenarioState.saveLog = [some "X".data] ∧
    saveScenarioState.isEditing = false ∧
    saveScenarioState.isOpen = true ∧
    saveScenarioState.content = some "HELLO".data ∧
    saveScenarioState.content ≠ some "X".data := by
  refine ⟨rfl, rfl, rfl, rfl, by decide⟩

/-- Concrete action run for the character-counter scenario: content ABCD,
begin editing, replace the draft with XY. -/
def counterScenarioState : PreviewState :=
  run (initState (some "ABCD".data))
    [UserAction.openPreview, UserAction.beginEdit, UserAction.editDraft "XY".data]

/-- C4 counterexample: while editing a two-character draft, the text shown
is the draft but the footer still displays the four-character count of the
content prop, so the displayed count is not the length of the shown text. -/
theorem char_count_ignores_draft_cex :
    counterScenarioState.isEditing = true ∧
    displayedCount counterScenarioState = 4 ∧
    shownTextLength counterScenarioState = 2 ∧
    displayedCount counterScenarioState ≠ shownTextLength counterScenarioState := by
  refine ⟨rfl, rfl, rfl, by decide⟩

/-- C4 amended: the displayed character count is always computed from the
content prop (rawText), falling back to zero when it is absent; it therefore
equals the length of the text currently shown only outside of editing, not
while a draft of different length is shown. -/
theorem char_count_tracks_content :
    ∀ s : PreviewState,
      displayedCount s = charCountDisplay s.content ∧
      (s.isEditing = false → displayedCount s = shownTextLength s) := by
  intro s
  refine ⟨rfl, fun h => ?_⟩
  unfold displayedCount shownTextLength shownText charCountDisplay jsOrNat
  rw [h]
  simp only [if_false, Bool.false_eq_true]
  cases s.content with
  | none => rfl
  | some t =>
    show (if t.length = 0 then 0 else t.length) = t.length
    by_cases h0 : t.length = 0
    · rw [if_pos h0, h0]
    · rw [if_neg h0]

/-- C4 witness: in the initial (non-editing) state with content AB the
displayed count equals the length of the shown text. -/
theorem char_count_tracks_content_witness :
    displayedCount (initState (some "AB".data)) =
      shownTextLength (initState (some "AB".data)) :=
  (char_count_tracks_content (initState (some "AB".data))).2 rfl

/-- Concrete action run for the close-while-editing scenario: begin editing,
type X, close the modal, reopen it. -/
def closeScenarioState : PreviewState :=
  run (initState (some "A".data))
    [UserAction.openPreview, UserAction.beginEdit, UserAction.editDraft "X".data,
     UserAction.closePreview, UserAction.openPreview]

/-- C5 counterexample: closing while editing and reopening does not enter
Viewing: the component keeps its local state while hidden, so the reopened
preview is still in Editing with the prior draft X. -/
theorem close_keeps_editing_cex :
    closeScenarioState.isOpen = true ∧
    closeScenarioState.isEditing = true ∧
    closeScenarioState.editedContent = some "X".data := by
  refine ⟨rfl, rfl, rfl⟩

/-- C5 amended: closing only flips the visibility flag and discards nothing:
rawText is unchanged, but the edit flag and draft survive, so closing and
reopening restores the entire state with the preview visible, resuming any
in-progress edit session rather than entering Viewing. -/
theorem close_reopen_preserves_state :
    ∀ s : PreviewState,
      step (step s UserAction.closePreview) UserAction.openPreview =
        { s with isOpen := true } := by
  intro s
  rfl

/-- C1 counterexample: the vocabulary test is a substring match, and the
word SKILLSET contains SKILLS, so the all-caps line SKILLSET BUILDING at a
non-zero index classifies as a section header, not as a paragraph. -/
theorem skillset_building_cex :
    classifyLine 1 "SKILLSET BUILDING".data =
      Block.section_header "SKILLSET BUILDING".data ∧
    blockRole (classifyLine 1 "SKILLSET BUILDING".data) ≠ Role.paragraph := by
  refine ⟨by decide, by decide⟩

/-- C6 counterexample: at line index 5 the lone-pipe line reaches the
job-header rule (no earlier rule fires) and is classified job_header, yet
splitting it on the pipe yields no non-empty part at all, so the claimed
requirement of at least two non-empty parts is not what the code checks. -/
theorem job_header_empty_parts_cex :
    blankCond (trim "|".data) = false ∧
    nameCond 5 (trim "|".data) = false ∧
    contactCond 5 (trim "|".data) = false ∧
    sectionCond (trim "|".data) = false ∧
    classifyLine 5 "|".data = Block.job_header "|".data ∧
    ((splitOnChar '|' (trim "|".data)).filter fun p => !p.isEmpty).length = 0 := by
  refine ⟨rfl, rfl, rfl, rfl, by decide, rfl⟩

theorem hasChar_all {p : Char → Bool} {l : List Char} {c : Char}
    (hall : l.all p = true) (hc : hasChar c l = true) : p c = true := by
  induction l with
  | nil => simp [hasChar] at hc
  | cons d ds ih =>
    rw [List.all_cons, Bool.and_eq_true] at hall
    rw [hasChar, Bool.or_eq_true] at hc
    cases hc with
    | inl h =>
      have hd : d = c := of_decide_eq_true h
      exact hd ▸ hall.1
    | inr h => exact ih hall.2 h

theorem hasChar_eq_false {p : Char → Bool} {l : List Char} {c : Char}
    (hall : l.all p = true) (hpc : p c = false) : hasChar c l = false := by
  cases h : hasChar c l
  · rfl
  · exact absurd (hasChar_all hall h) (by simp [hpc])

theorem listStartsWith_cons_head {c : Char} {ps l : List Char}
    (h : listStartsWith (c :: ps) l = true) : l.head? = some c := by
  cases l with
  | nil => simp [listStartsWith] at h
  | cons d ds =>
    rw [listStartsWith, Bool.and_eq_true] at h
    have hd : c = d := of_decide_eq_true h.1
    rw [hd]
    rfl

theorem listContains_cons_hasChar {c : Char} {ps l : List Char}
    (h : listContains (c :: ps) l = true) : hasChar c l = true := by
  induction l with
  | nil => simp [listContains, List.isEmpty] at h
  | cons d ds ih =>
    rw [listContains, Bool.or_eq_true] at h
    cases h with
    | inl h =>
      have hd : d = c := by simpa using listStartsWith_cons_head h
      rw [hasChar, hd]
      simp
    | inr h =>
      rw [hasChar]
      simp [ih h]

theorem listContains_eq_false {p : Char → Bool} {l : List Char} {c : Char} {ps : List Char}
    (hall : l.all p = true) (hpc : p c = false) : listContains (c :: ps) l = false := by
  cases h : listContains (c :: ps) l
  · rfl
  · exact absurd (hasChar_all hall (listContains_cons_hasChar h)) (by simp [hpc])

theorem splitOnChar_ne_nil (sep : Char) (l : List Char) : splitOnChar sep l ≠ [] := by
  cases l with
  | nil => simp [splitOnChar]
  | cons c cs =>
    rw [splitOnChar]
    by_cases h : c = sep
    · simp [h]
    · rw [if_neg h]
      cases hr : splitOnChar sep cs with
      | nil => simp
      | cons p ps => simp

theorem splitOnChar_length_pos (sep : Char) (l : List Char) :
    1 ≤ (splitOnChar sep l).length := by
  cases h : splitOnChar sep l with
  | nil => exact absurd h (splitOnChar_ne_nil sep l)
  | cons p ps => simp

theorem splitOnChar_length_ge_two {sep : Char} {l : List Char}
    (h : hasChar sep l = true) : 2 ≤ (splitOnChar sep l).length := by
  induction l with
  | nil => simp [hasChar] at h
  | cons c cs ih =>
    rw [hasChar, Bool.or_eq_true] at h
    rw [splitOnChar]
    by_cases hc : c = sep
    · rw [if_pos hc]
      have hp := splitOnChar_length_pos sep cs
      simp only [List.length_cons]
      omega
    · rw [if_neg hc]
      have hcs : hasChar sep cs = true := by
        cases h with
        | inl h0 => exact absurd (of_decide_eq_true h0) hc
        | inr h0 => exact h0
      have h2 := ih hcs
      cases hr : splitOnChar sep cs with
      | nil => exact absurd hr (splitOnChar_ne_nil sep cs)
      | cons p ps =>
        rw [hr] at h2
        simp only [List.length_cons] at h2 ⊢
        omega

theorem hasChar_append (c : Char) (l m : List Char) :
    hasChar c (l ++ m) = (hasChar c l || hasChar c m) := by
  induction l with
  | nil => simp [hasChar]
  | cons d ds ih =>
    rw [List.cons_append, hasChar, hasChar, ih, Bool.or_assoc]

theorem hasChar_reverse (c : Char) (l : List Char) :
    hasChar c l.reverse = hasChar c l := by
  induction l with
  | nil => rfl
  | cons d ds ih =>
    rw [List.reverse_cons, hasChar_append, ih, hasChar, hasChar, hasChar]
    simp [Bool.or_comm]

theorem hasChar_dropWhile {c : Char} {p : Char → Bool} {l : List Char}
    (h : hasChar c l = true) (hp : p c = false) :
    hasChar c (l.dropWhile p) = true := by
  induction l with
  | nil => simp [hasChar] at h
  | cons d ds ih =>
    rw [List.dropWhile_cons]
    cases hd : p d
    · simpa [hd] using h
    · rw [hasChar, Bool.or_eq_true] at h
      cases h with
      | inl h0 =>
        have hdc : d = c := of_decide_eq_true h0
        rw [hdc] at hd
        rw [hd] at hp
        exact absurd hp (by simp)
      | inr h0 => simpa [hd] using ih h0

theorem hasChar_trim {c : Char} {l : List Char}
    (h : hasChar c l = true) (hw : isJsWhitespace c = false) :
    hasChar c (trim l) = true := by
  unfold trim trimLeft
  rw [hasChar_reverse]
  apply hasChar_dropWhile _ hw
  rw [hasChar_reverse]
  exact hasChar_dropWhile h hw

theorem isEmpty_false_of_hasChar {c : Char} {l : List Char}
    (h : hasChar c l = true) : l.isEmpty = false := by
  cases l with
  | nil => simp [hasChar] at h
  | cons d ds => rfl

/-- C8: the classifier is the first-match-wins evaluation of the ordered
rule table blank, person name, contact info, section header, job header,
bullet, skill entry, with paragraph as the fall-through default; hence any
line in the first five lines containing both a pipe and an at sign becomes
contact info and never job header or skill entry, and in particular the
line John Doe pipe john at example.com at index zero is contact info. -/
theorem classifier_rule_order :
    (∀ (i : Nat) (line : List Char),
      blockRole (classifyLine i line) = firstMatch i (trim line) ruleList) ∧
    (∀ (i : Nat) (line : List Char), i < 5 → hasChar '|' line = true →
      hasChar '@' line = true →
      blockRole (classifyLine i line) = Role.contact_info) ∧
    blockRole (classifyLine 0 "John Doe | john@example.com".data) = Role.contact_info := by
  refine ⟨?_, ?_, by decide⟩
  · intro i line
    unfold classifyLine classifyTrimmed
    simp only [ruleList, firstMatch]
    split_ifs <;> rfl
  · intro i line hi hpipe hat
    have hat' : hasChar '@' (trim line) = true := hasChar_trim hat (by decide)
    have hblank : ¬ (blankCond (trim line) = true) := by
      simp [blankCond, isEmpty_false_of_hasChar hat']
    have hname : ¬ (nameCond i (trim line) = true) := by
      intro hn
      rw [nameCond, Bool.and_eq_true, Bool.and_eq_true] at hn
      have hall : (trim line).all (fun c => isUpperAZ c || isJsWhitespace c) = true := by
        have := hn.1.2
        rw [jsMatchNameChars, Bool.and_eq_true] at this
        exact this.2
      have := hasChar_all hall hat'
      simp [isUpperAZ, isJsWhitespace] at this
    have hcontact : contactCond i (trim line) = true := by
      rw [contactCond, Bool.or_eq_true, Bool.or_eq_true]
      exact Or.inl (Or.inl hat')
    unfold classifyLine classifyTrimmed
    rw [if_neg hblank, if_neg hname, if_pos hcontact]
    rfl

/-- C8 witness: a pipe-and-at line at index 1 is contact info. -/
theorem classifier_rule_order_witness :
    blockRole (classifyLine 1 "a|b@c".data) = Role.contact_info :=
  classifier_rule_order.2.1 1 "a|b@c".data (by decide) (by decide) (by decide)

theorem startsWithChar_eq_false_of_all {p : Char → Bool} {l : List Char} {c : Char}
    (hall : l.all p = true) (hpc : p c = false) : startsWithChar c l = false := by
  cases l with
  | nil => rfl
  | cons d ds =>
    rw [List.all_cons, Bool.and_eq_true] at hall
    rw [startsWithChar]
    cases hdc : decide (d = c)
    · rfl
    · have hd : d = c := of_decide_eq_true hdc
      have hp1 := hall.1
      rw [hd, hpc] at hp1
      exact absurd hp1 (by simp)

/-- C1 amended: for a line not at index zero whose trimmed text is all caps,
spaces and ampersands with length above 3, the classification is
section_header exactly when one of the fixed vocabulary titles occurs in it
as a substring; since the test is a substring test, SKILLS matches and
SKILLSET BUILDING also matches (SKILLSET contains SKILLS), so both classify
as section headers. -/
theorem classifier_section_header_vocab :
    (∀ (i : Nat) (line : List Char), i ≠ 0 →
      jsMatchSectionChars (trim line) = true → 3 < (trim line).length →
      (blockRole (classifyLine i line) = Role.section_header ↔
        (sectionVocab.any fun sec => listContains sec (trim line)) = true)) ∧
    blockRole (classifyLine 1 "SKILLS".data) = Role.section_header ∧
    blockRole (classifyLine 1 "SKILLSET BUILDING".data) = Role.section_header := by
  refine ⟨?_, by decide, by decide⟩
  intro i line hi hmatch hlen
  have hall : (trim line).all
      (fun c => isUpperAZ c || isJsWhitespace c || decide (c = '&')) = true := by
    have h0 := hmatch
    rw [jsMatchSectionChars, Bool.and_eq_true] at h0
    exact h0.2
  have hat : hasChar '@' (trim line) = false := hasChar_eq_false hall (by decide)
  have hpipe : hasChar '|' (trim line) = false := hasChar_eq_false hall (by decide)
  have hcolon : hasChar ':' (trim line) = false := hasChar_eq_false hall (by decide)
  have hlinked : listContains linkedinPat (trim line) = false := by
    have hl : linkedinPat = 'l' :: "inkedin.com".data := rfl
    rw [hl]
    exact listContains_eq_false hall (by decide)
  have hblank : ¬ (blankCond (trim line) = true) := by
    simp only [blankCond]
    cases ht : trim line with
    | nil => rw [ht] at hlen; simp at hlen
    | cons c cs => simp
  have hname : ¬ (nameCond i (trim line) = true) := by
    simp [nameCond, hi]
  have hcontact : ¬ (contactCond i (trim line) = true) := by
    simp [contactCond, hat, hpipe, hlinked]
  unfold classifyLine classifyTrimmed
  rw [if_neg hblank, if_neg hname, if_neg hcontact]
  by_cases hv : (sectionVocab.any fun sec => listContains sec (trim line)) = true
  · have hsec : sectionCond (trim line) = true := by
      rw [sectionCond, Bool.and_eq_true, Bool.and_eq_true]
      exact ⟨⟨hmatch, decide_eq_true hlen⟩, hv⟩
    rw [if_pos hsec]
    simp [blockRole, hv]
  · have hsec : ¬ (sectionCond (trim line) = true) := by
      simp only [sectionCond, Bool.and_eq_true]
      intro hcon
      exact hv hcon.2
    rw [if_neg hsec]
    have hjob : ¬ (jobCond (trim line) = true) := by
      simp [jobCond, hpipe]
    rw [if_neg hjob]
    have hbul0 : startsWithChar '•' (trim line) = false :=
      startsWithChar_eq_false_of_all hall (by decide)
    have hbul : ¬ (bulletCond (trim line) = true) := by
      simp [bulletCond, hbul0]
    rw [if_neg hbul]
    have hskill : ¬ (skillCond (trim line) = true) := by
      simp [skillCond, hcolon]
    rw [if_neg hskill]
    simp [blockRole, hv]

/-- C1 witness: EDUCATION at a non-zero index is a section header, derived
from the vocabulary biconditional. -/
theorem classifier_section_header_vocab_witness :
    blockRole (classifyLine 2 "EDUCATION".data) = Role.section_header :=
  (classifier_section_header_vocab.1 2 "EDUCATION".data (by decide) (by decide)
    (by decide)).mpr (by decide)

/-- C6 amended: for a line that reaches the job-header rule (none of the
earlier rules fires), the classification is job_header exactly when the
trimmed text contains a pipe; the split-length check of the source is
vacuous because splitting a string that contains its separator always
yields at least two pieces when empty pieces are counted, so no non-empty
parts are required. -/
theorem job_header_iff_pipe :
    ∀ (i : Nat) (line : List Char),
      blankCond (trim line) = false →
      nameCond i (trim line) = false →
      contactCond i (trim line) = false →
      sectionCond (trim line) = false →
      (blockRole (classifyLine i line) = Role.job_header ↔
        hasChar '|' (trim line) = true) := by
  intro i line hb hn hc hs
  unfold classifyLine classifyTrimmed
  rw [if_neg (by simp [hb]), if_neg (by simp [hn]), if_neg (by simp [hc]),
    if_neg (by simp [hs])]
  by_cases hp : hasChar '|' (trim line) = true
  · have hj : jobCond (trim line) = true := by
      rw [jobCond, Bool.and_eq_true]
      exact ⟨hp, decide_eq_true (splitOnChar_length_ge_two hp)⟩
    rw [if_pos hj]
    simp [blockRole, hp]
  · have hj : ¬ (jobCond (trim line) = true) := by
      simp only [jobCond, Bool.and_eq_true]
      intro hcon
      exact hp hcon.1
    rw [if_neg hj]
    have hp' : hasChar '|' (trim line) = false := by
      cases h : hasChar '|' (trim line)
      · rfl
      · exact absurd h hp
    rw [hp']
    simp only [Bool.false_eq_true, iff_false]
    split_ifs <;> simp [blockRole]

/-- C6 witness: the lone-pipe line at index 5 is a job header, via the
pipe-only characterisation. -/
theorem job_header_iff_pipe_witness :
    blockRole (classifyLine 5 "|".data) = Role.job_header :=
  (job_header_iff_pipe 5 "|".data (by decide) (by decide) (by decide)
    (by decide)).mpr (by decide)

theorem classifyLinesFrom_length (j : Nat) (ls : List (List Char)) :
    (classifyLinesFrom j ls).length = ls.length := by
  induction ls generalizing j with
  | nil => rfl
  | cons l ls ih =>
    show (classifyLine j l :: classifyLinesFrom (j + 1) ls).length = _
    rw [List.length_cons, List.length_cons, ih]

theorem classifyLinesFrom_get (ls : List (List Char)) (j i : Nat)
    (h1 : i < (classifyLinesFrom j ls).length) (h2 : i < ls.length) :
    (classifyLinesFrom j ls).get ⟨i, h1⟩ = classifyLine (j + i) (ls.get ⟨i, h2⟩) := by
  induction ls generalizing j i with
  | nil => simp at h2
  | cons l ls ih =>
    cases i with
    | zero => rfl
    | succ i =>
      have h1' : i < (classifyLinesFrom (j + 1) ls).length := by
        rw [classifyLinesFrom_length] at h1 ⊢
        rw [List.length_cons] at h1
        omega
      have h2' : i < ls.length := by
        rw [List.length_cons] at h2
        omega
      have hih := ih (j + 1) i h1' h2'
      have hstep : (classifyLinesFrom j (l :: ls)).get ⟨i + 1, h1⟩ =
          (classifyLinesFrom (j + 1) ls).get ⟨i, h1'⟩ := rfl
      rw [hstep, hih]
      congr 1
      omega

/-- C7: the classifier is total and structure-preserving: the empty string
yields an empty block sequence, every other input yields exactly one block
per newline-delimited line, and the block at position i is the
classification of line i, so the original order is preserved. -/
theorem classify_one_block_per_line :
    classifyText [] = [] ∧
    (∀ text : List Char, (classifyText text).length = numberOfLines text) ∧
    (∀ (text : List Char) (i : Nat) (h1 : i < (classifyText text).length)
      (h2 : i < (linesOf text).length),
      (classifyText text).get ⟨i, h1⟩ = classifyLine i ((linesOf text).get ⟨i, h2⟩)) := by
  refine ⟨rfl, ?_, ?_⟩
  · intro text
    cases text with
    | nil => rfl
    | cons c cs =>
      show (classifyLinesFrom 0 (splitOnChar '\n' (c :: cs))).length = _
      rw [classifyLinesFrom_length]
      rfl
  · intro text i h1 h2
    cases text with
    | nil => simp [classifyText] at h1
    | cons c cs =>
      have hmain := classifyLinesFrom_get (splitOnChar '\n' (c :: cs)) 0 i
        (by simpa [classifyText] using h1) (by simpa [linesOf] using h2)
      simp only [Nat.zero_add] at hmain
      exact hmain

/-- C7 witness: a three-line input yields three blocks and the middle block
is the classification of the middle (blank) line. -/
theorem classify_one_block_per_line_witness :
    (classifyText "A\n\nB".data).length = numberOfLines "A\n\nB".data ∧
    (classifyText "A\n\nB".data).get ⟨1, by decide⟩ =
      classifyLine 1 ((linesOf "A\n\nB".data).get ⟨1, by decide⟩) :=
  ⟨classify_one_block_per_line.2.1 "A\n\nB".data,
   classify_one_block_per_line.2.2 "A\n\nB".data 1 (by decide) (by decide)⟩

/-- Last character of a list, if any. -/
def lastCh : List Char → Option Char
  | [] => none
  | [c] => some c
  | _ :: c :: cs => lastCh (c :: cs)

theorem lastCh_cons (a : Char) (l : List Char) (h : l ≠ []) :
    lastCh (a :: l) = lastCh l := by
  cases l with
  | nil => exact absurd rfl h
  | cons b bs => rfl

theorem lastCh_append_right (t x : List Char) (hx : x ≠ []) :
    lastCh (t ++ x) = lastCh x := by
  induction t with
  | nil => rfl
  | cons a t ih =>
    rw [List.cons_append,
      lastCh_cons a (t ++ x) (by
        intro h0
        exact hx (List.append_eq_nil.mp h0).2),
      ih]

theorem lastCh_reverse (l : List Char) : lastCh l.reverse = l.head? := by
  cases l with
  | nil => rfl
  | cons a as =>
    rw [List.reverse_cons, lastCh_append_right as.reverse [a] (by simp)]
    rfl

theorem head?_reverse (l : List Char) : l.reverse.head? = lastCh l := by
  have h := lastCh_reverse l.reverse
  rw [List.reverse_reverse] at h
  exact h.symm

theorem dropWhile_head?_not (p : Char → Bool) (l : List Char) (c : Char)
    (h : (l.dropWhile p).head? = some c) : p c = false := by
  induction l with
  | nil => simp [List.dropWhile] at h
  | cons a as ih =>
    rw [List.dropWhile_cons] at h
    by_cases ha : p a = true
    · rw [if_pos ha] at h
      exact ih h
    · rw [if_neg ha] at h
      have hac : a = c := by simpa using h
      rw [← hac]
      simpa using ha

theorem dropWhile_suffix (p : Char → Bool) (l : List Char) :
    ∃ t, t ++ l.dropWhile p = l := by
  induction l with
  | nil => exact ⟨[], rfl⟩
  | cons a as ih =>
    rw [List.dropWhile_cons]
    by_cases ha : p a = true
    · rw [if_pos ha]
      obtain ⟨t, ht⟩ := ih
      exact ⟨a :: t, by rw [List.cons_append, ht]⟩
    · rw [if_neg ha]
      exact ⟨[], rfl⟩

theorem dropWhile_append_all {p : Char → Bool} {t : List Char} (m : List Char)
    (h : t.all p = true) : (t ++ m).dropWhile p = m.dropWhile p := by
  induction t with
  | nil => rfl
  | cons a as ih =>
    rw [List.all_cons, Bool.and_eq_true] at h
    rw [List.cons_append, List.dropWhile_cons, if_pos h.1, ih h.2]

theorem dropWhile_nil_of_all {p : Char → Bool} {t : List Char}
    (h : t.all p = true) : t.dropWhile p = [] := by
  induction t with
  | nil => rfl
  | cons a as ih =>
    rw [List.all_cons, Bool.and_eq_true] at h
    rw [List.dropWhile_cons, if_pos h.1]
    exact ih h.2

theorem dropWhile_append_cases (p : Char → Bool) (l m : List Char) :
    (l ++ m).dropWhile p =
      (if l.dropWhile p = [] then m.dropWhile p else l.dropWhile p ++ m) := by
  induction l with
  | nil => simp
  | cons a as ih =>
    by_cases ha : p a = true
    · have h1 : List.dropWhile p (a :: as) = List.dropWhile p as := by
        rw [List.dropWhile_cons, if_pos ha]
      have h2 : List.dropWhile p ((a :: as) ++ m) = List.dropWhile p (as ++ m) := by
        rw [List.cons_append, List.dropWhile_cons, if_pos ha]
      rw [h2, h1, ih]
    · have h1 : List.dropWhile p (a :: as) = a :: as := by
        rw [List.dropWhile_cons, if_neg ha]
      have h2 : List.dropWhile p ((a :: as) ++ m) = a :: (as ++ m) := by
        rw [List.cons_append, List.dropWhile_cons, if_neg ha]
      rw [h2, h1, if_neg (by simp), List.cons_append]

theorem all_reverse (p : Char → Bool) (l : List Char) :
    l.reverse.all p = l.all p := by
  induction l with
  | nil => rfl
  | cons a as ih =>
    rw [List.reverse_cons, List.all_append, List.all_cons, List.all_cons, ih]
    simp [Bool.and_comm, Bool.and_assoc, Bool.and_true]

theorem trim_head?_not (l : List Char) (c : Char) (h : (trim l).head? = some c) :
    isJsWhitespace c = false := by
  unfold trim at h
  rw [head?_reverse] at h
  obtain ⟨t, ht⟩ := dropWhile_suffix isJsWhitespace (trimLeft l).reverse
  have hwne : (trimLeft l).reverse.dropWhile isJsWhitespace ≠ [] := by
    intro h0
    rw [h0] at h
    simp [lastCh] at h
  have h2 : lastCh ((trimLeft l).reverse) = some c := by
    rw [← ht, lastCh_append_right t _ hwne, h]
  rw [lastCh_reverse] at h2
  exact dropWhile_head?_not isJsWhitespace l c h2

theorem trim_lastCh_not (l : List Char) (c : Char) (h : lastCh (trim l) = some c) :
    isJsWhitespace c = false := by
  unfold trim at h
  rw [lastCh_reverse] at h
  exact dropWhile_head?_not isJsWhitespace (trimLeft l).reverse c h

theorem trim_eq_self (x : List Char)
    (h1 : ∀ c, x.head? = some c → isJsWhitespace c = false)
    (h2 : ∀ c, lastCh x = some c → isJsWhitespace c = false) :
    trim x = x := by
  have hleft : trimLeft x = x := by
    cases x with
    | nil => rfl
    | cons a as =>
      have ha := h1 a rfl
      unfold trimLeft
      rw [List.dropWhile_cons, if_neg (by simp [ha])]
  unfold trim
  rw [hleft]
  cases hx : x.reverse with
  | nil =>
    have hnil : x = [] := by simpa using congrArg List.reverse hx
    simp [hnil]
  | cons b bs =>
    have hb : x.reverse.head? = some b := by rw [hx]; rfl
    rw [head?_reverse] at hb
    have hbw := h2 b hb
    rw [List.dropWhile_cons, if_neg (by simp [hbw]), ← hx, List.reverse_reverse]

theorem trim_idem (l : List Char) : trim (trim l) = trim l :=
  trim_eq_self (trim l) (trim_head?_not l) (trim_lastCh_not l)

theorem trim_pad {ws1 ws2 : List Char} (l : List Char)
    (h1 : ws1.all isJsWhitespace = true) (h2 : ws2.all isJsWhitespace = true) :
    trim (ws1 ++ l ++ ws2) = trim l := by
  have hassoc : ws1 ++ l ++ ws2 = ws1 ++ (l ++ ws2) := List.append_assoc ws1 l ws2
  unfold trim trimLeft
  rw [hassoc, dropWhile_append_all _ h1, dropWhile_append_cases]
  by_cases hl : l.dropWhile isJsWhitespace = []
  · rw [if_pos hl, hl, dropWhile_nil_of_all h2]
  · rw [if_neg hl, List.reverse_append,
      dropWhile_append_all _ (by rw [all_reverse]; exact h2)]

theorem splitOnChar_headD_head? (sep : Char) (t : List Char) (a : Char)
    (h : ((splitOnChar sep t).headD []).head? = some a) : t.head? = some a := by
  cases t with
  | nil => simp [splitOnChar] at h
  | cons c cs =>
    simp only [splitOnChar] at h
    by_cases hc : c = sep
    · rw [if_pos hc] at h
      simp at h
    · rw [if_neg hc] at h
      cases hr : splitOnChar sep cs with
      | nil => exact absurd hr (splitOnChar_ne_nil sep cs)
      | cons p ps =>
        rw [hr] at h
        have hca : c = a := by simpa using h
        rw [← hca]
        rfl

/-- C9: classification depends only on the trimmed line content and the
index, so padding a line with leading or trailing whitespace never changes
its block; and every block's displayed text carries no leading or trailing
whitespace (bullet text and skill values are re-trimmed by the source, and
a skill entry's rendered key-colon-value starts and ends with non-space
characters). -/
theorem classifier_trim_invariant :
    (∀ (i : Nat) (l1 l2 : List Char), trim l1 = trim l2 →
      classifyLine i l1 = classifyLine i l2) ∧
    (∀ (i : Nat) (line ws1 ws2 : List Char),
      ws1.all isJsWhitespace = true → ws2.all isJsWhitespace = true →
      classifyLine i (ws1 ++ line ++ ws2) = classifyLine i line) ∧
    (∀ (i : Nat) (line : List Char),
      trim (displayText (classifyLine i line)) = displayText (classifyLine i line)) := by
  refine ⟨?_, ?_, ?_⟩
  · intro i l1 l2 h
    unfold classifyLine
    rw [h]
  · intro i line ws1 ws2 h1 h2
    unfold classifyLine
    rw [trim_pad line h1 h2]
  · intro i line
    unfold classifyLine classifyTrimmed
    split_ifs with hb hn hc hs hj hbul hsk
    · rfl
    · exact trim_idem line
    · exact trim_idem line
    · exact trim_idem line
    · exact trim_idem line
    · exact trim_idem ((trim line).drop 1)
    · refine trim_eq_self _ ?_ ?_
      · intro c hc0
        simp only [displayText] at hc0
        cases hk : (splitOnChar ':' (trim line)).headD [] with
        | nil =>
          rw [hk] at hc0
          have hcc : ':' = c := by simpa using hc0
          rw [← hcc]
          decide
        | cons a ks =>
          rw [hk] at hc0
          have hac : a = c := by simpa using hc0
          have hka : ((splitOnChar ':' (trim line)).headD []).head? = some a := by
            rw [hk]
            rfl
          have hta := splitOnChar_headD_head? ':' (trim line) a hka
          have hw := trim_head?_not line a hta
          rw [← hac]
          exact hw
      · intro c hc0
        simp only [displayText] at hc0
        rw [lastCh_append_right _ _ (by simp)] at hc0
        cases hv : trim (joinWith ':' (List.drop 1 (splitOnChar ':' (trim line)))) with
        | nil =>
          rw [hv] at hc0
          have hcc : ':' = c := by simpa [lastCh] using hc0
          rw [← hcc]
          decide
        | cons b bs =>
          rw [hv] at hc0
          rw [lastCh_cons ':' (b :: bs) (by simp)] at hc0
          rw [← hv] at hc0
          exact trim_lastCh_not _ c hc0
    · exact trim_idem line

/-- C9 witness: a padded bullet line classifies identically to its unpadded
form, and its displayed text is trim-fixed. -/
theorem classifier_trim_invariant_witness :
    classifyLine 3 ("  • Led a team  ".data) = classifyLine 3 ("• Led a team".data) ∧
    trim (displayText (classifyLine 3 ("• Led a team".data))) =
      displayText (classifyLine 3 ("• Led a team".data)) :=
  ⟨classifier_trim_invariant.2.1 3 "• Led a team".data "  ".data "  ".data
    (by decide) (by decide),
   classifier_trim_invariant.2.2 3 "• Led a team".data⟩
